import Mathlib

/-!
# Verification of the R-group finder / enumerator core

Shallow embedding of `src/fragmentation/editable_molecule.py` (class
`RGroupMolObject`): the R-Group Finder (`find_r_groups`), the Enumerator
(`r_group_enumerator`) and the molecule validator (`validate_molecule`).

The Python code drives two external chemistry primitives (substructure
matching and substructure replacement, provided by the RDKit library).
These are embedded as an explicit record of operations `ChemOps`: each
fallible primitive returns `Except String _` because the Python code wraps
none of these calls in a try/except, so an exception raised by a primitive
propagates out of the calling method.  A concrete toy chemistry over small
labelled graphs (`MolGraph`), modelled from the spec's Pattern Matcher and
replace-all contracts, instantiates the record for concrete evaluations.
-/

namespace CocktailShaker

/-- One entry of the `R_Groups` data source: the loaded YAML maps a group
identifier to a two-element list, `value[0]` the replacement-fragment
notation (SMILES) and `value[1]` the attachment-pattern notation (SMARTS). -/
structure RGroupData where
  smiles : String
  smarts : String
deriving DecidableEq, Repr

/-- The `R_GROUPS` ordered mapping (a Python dict preserves insertion
order), embedded as an association list. -/
abbrev RGroupTable := List (String × RGroupData)

/-- The external chemistry primitives the Python methods call
(`Chem.MolFromSmarts`, `Chem.MolFromSmiles`,
`Mol.GetSubstructMatches(pattern, uniquify=False)`,
`Chem.ReplaceSubstructs(mol, query, replacement, replaceAll=True)`).
A failing call raises in Python, hence the `Except` results; a
substructure-match call returns the plain tuple of occurrences.
`replaceSubstructs` returns the tuple of result molecules (a one-element
tuple under `replaceAll=True`). -/
structure ChemOps (Mol Pat : Type) where
  molFromSmarts : String → Except String Pat
  molFromSmiles : String → Except String Mol
  getSubstructMatches : Mol → Pat → List (List Nat)
  replaceSubstructs : Mol → Pat → Mol → Except String (List Mol)

/-- `RGroupMolObject.find_r_groups` (lines 108-128), recursing over the
`R_GROUPS` iteration: for each `(key, value)` parse `value[1]` as a SMARTS
pattern, and when `GetSubstructMatches(pattern, uniquify=False)` is
non-empty, record `pattern_payload[key] = [value[0], value[1]]` and print
the key together with the occurrence count (the print log is returned as
the second component, pairing each retained key with its match count).
An exception from a primitive propagates (there is no try/except). -/
def find_r_groups {Mol Pat : Type} (ops : ChemOps Mol Pat) (molecule : Mol) :
    RGroupTable → Except String (RGroupTable × List (String × Nat))
  | [] => .ok ([], [])
  | (key, value) :: rest =>
    match ops.molFromSmarts value.smarts with
    | .error e => .error e
    | .ok pattern =>
      match find_r_groups ops molecule rest with
      | .error e => .error e
      | .ok (payload, log) =>
        if ops.getSubstructMatches molecule pattern = [] then
          .ok (payload, log)
        else
          .ok ((key, value) :: payload,
               (key, (ops.getSubstructMatches molecule pattern).length) :: log)

/-- The inner loop of `RGroupMolObject.r_group_enumerator` (lines 141-149):
iterate the whole `R_GROUPS` table; skip a candidate whose SMARTS text
`r_data[1]` equals the found entry's `value[1]` (string equality); otherwise
parse `r_data[0]` as the replacement fragment, run the replace-all rewrite,
and append element `[0]` of the returned tuple to the accumulator
`modified_molecules`. -/
def enumInner {Mol Pat : Type} (ops : ChemOps Mol Pat) (molecule : Mol)
    (value : RGroupData) (smarts_mol : Pat) :
    RGroupTable → List Mol → Except String (List Mol)
  | [], acc => .ok acc
  | (_, r_data) :: rest, acc =>
    if r_data.smarts = value.smarts then
      enumInner ops molecule value smarts_mol rest acc
    else
      match ops.molFromSmiles r_data.smiles with
      | .error e => .error e
      | .ok fragment =>
        match ops.replaceSubstructs molecule smarts_mol fragment with
        | .error e => .error e
        | .ok [] => .error "list index out of range"
        | .ok (m :: _) => enumInner ops molecule value smarts_mol rest (acc ++ [m])

/-- The outer loop of `r_group_enumerator` (lines 139-149): for each found
entry parse its SMARTS text once, then run the inner loop over the whole
table, threading the `modified_molecules` accumulator. -/
def enumOuter {Mol Pat : Type} (ops : ChemOps Mol Pat) (molecule : Mol)
    (rGroups : RGroupTable) :
    RGroupTable → List Mol → Except String (List Mol)
  | [], acc => .ok acc
  | (_, value) :: restFound, acc =>
    match ops.molFromSmarts value.smarts with
    | .error e => .error e
    | .ok smarts_mol =>
      match enumInner ops molecule value smarts_mol rGroups acc with
      | .error e => .error e
      | .ok acc2 => enumOuter ops molecule rGroups restFound acc2

/-- `RGroupMolObject.r_group_enumerator` (lines 130-151): start from the
empty `modified_molecules` list and run the two nested loops over
`patterns_found` (outer) and the whole `R_GROUPS` table (inner). -/
def r_group_enumerator {Mol Pat : Type} (ops : ChemOps Mol Pat) (molecule : Mol)
    (rGroups : RGroupTable) (patterns_found : RGroupTable) :
    Except String (List Mol) :=
  enumOuter ops molecule rGroups patterns_found []

/-- What `RGroupMolObject.validate_molecule` (lines 82-106) did: the value
the method returns (`none` embeds Python's `None`) and whether the
`Chem.rdmolops.SanitizeMol` call was reached. -/
structure ValidateOutcome (Mol : Type) where
  returned : Option Mol
  sanitizeReached : Bool
deriving DecidableEq, Repr

/-- `RGroupMolObject.validate_molecule` (lines 82-106).  The body is a
single `if not molecule:` guard.  A truthy (present) molecule skips the
guard and the method falls off its end, returning `None` and never invoking
`SanitizeMol`.  A falsy molecule (`None`) enters the guard; `SanitizeMol`
runs on the falsy argument inside a `try` whose `finally: return molecule`
returns the argument, discarding any exception the body raised (`sanitize`
is the embedded `SanitizeMol`; the `finally` clause makes its outcome
irrelevant to the returned value, which is why the result ignores it). -/
def validate_molecule {Mol : Type} (sanitize : Option Mol → Except String Unit)
    (molecule : Option Mol) : ValidateOutcome Mol :=
  match molecule with
  | some _ => { returned := none, sanitizeReached := false }
  | none =>
    match sanitize none with
    | _ => { returned := none, sanitizeReached := true }

/-- A total chemistry: primitives that never raise.  `toOps` wraps it as
the `ChemOps` record the embedded methods consume, and records that
`ReplaceSubstructs` under `replaceAll=True` returns a one-element tuple
holding the single all-at-once rewrite. -/
structure PureChem (Mol Pat : Type) where
  molFromSmarts : String → Pat
  molFromSmiles : String → Mol
  getSubstructMatches : Mol → Pat → List (List Nat)
  replaceSubstructs : Mol → Pat → Mol → Mol

/-- Wrap a total chemistry as the fallible interface. -/
def PureChem.toOps {Mol Pat : Type} (c : PureChem Mol Pat) : ChemOps Mol Pat where
  molFromSmarts s := .ok (c.molFromSmarts s)
  molFromSmiles s := .ok (c.molFromSmiles s)
  getSubstructMatches := c.getSubstructMatches
  replaceSubstructs m p f := .ok [c.replaceSubstructs m p f]

/-- The single derivative the enumerator builds for one (found pattern,
candidate entry) pair: the all-at-once rewrite of every occurrence of the
parsed found pattern by the candidate's parsed fragment. -/
def derivOf {Mol Pat : Type} (c : PureChem Mol Pat) (mol : Mol) (pat : Pat)
    (e : String × RGroupData) : Mol :=
  c.replaceSubstructs mol pat (c.molFromSmiles e.2.smiles)

/-- The derivatives one found entry contributes: one per table entry whose
SMARTS text differs from the found entry's. -/
def innerDerivs {Mol Pat : Type} (c : PureChem Mol Pat) (mol : Mol)
    (value : RGroupData) (pat : Pat) (rGroups : RGroupTable) : List Mol :=
  (rGroups.filter fun e => decide (¬ e.2.smarts = value.smarts)).map
    (derivOf c mol pat)

/-- What one table entry contributes for a given found entry: nothing when
its SMARTS text equals the found entry's, exactly one rewrite otherwise. -/
def contribOf {Mol Pat : Type} (c : PureChem Mol Pat) (mol : Mol)
    (value : RGroupData) (pat : Pat) (e : String × RGroupData) : List Mol :=
  if e.2.smarts = value.smarts then [] else [derivOf c mol pat e]

/-- The substructure-match list the Finder computes for a table entry. -/
def foundMatches {Mol Pat : Type} (c : PureChem Mol Pat) (mol : Mol)
    (e : String × RGroupData) : List (List Nat) :=
  c.getSubstructMatches mol (c.molFromSmarts e.2.smarts)

@[simp]
theorem toOps_molFromSmarts {Mol Pat : Type} (c : PureChem Mol Pat) (s : String) :
    c.toOps.molFromSmarts s = .ok (c.molFromSmarts s) := rfl

@[simp]
theorem toOps_molFromSmiles {Mol Pat : Type} (c : PureChem Mol Pat) (s : String) :
    c.toOps.molFromSmiles s = .ok (c.molFromSmiles s) := rfl

@[simp]
theorem toOps_getSubstructMatches {Mol Pat : Type} (c : PureChem Mol Pat)
    (m : Mol) (p : Pat) :
    c.toOps.getSubstructMatches m p = c.getSubstructMatches m p := rfl

@[simp]
theorem toOps_replaceSubstructs {Mol Pat : Type} (c : PureChem Mol Pat)
    (m : Mol) (p : Pat) (f : Mol) :
    c.toOps.replaceSubstructs m p f = .ok [c.replaceSubstructs m p f] := rfl

theorem enumInner_toOps {Mol Pat : Type} (c : PureChem Mol Pat) (mol : Mol)
    (value : RGroupData) (pat : Pat) (rGroups : RGroupTable) (acc : List Mol) :
    enumInner c.toOps mol value pat rGroups acc =
      .ok (acc ++ innerDerivs c mol value pat rGroups) := by
  induction rGroups generalizing acc with
  | nil => simp [enumInner, innerDerivs]
  | cons hd tl ih =>
    obtain ⟨k, d⟩ := hd
    by_cases h : d.smarts = value.smarts
    · simpa [enumInner, h, innerDerivs, List.filter_cons] using ih acc
    · simp only [enumInner, h, if_false, toOps_molFromSmiles, toOps_replaceSubstructs]
      rw [ih (acc ++ [c.replaceSubstructs mol pat (c.molFromSmiles d.smiles)])]
      simp [innerDerivs, List.filter_cons, h, derivOf]

theorem enumInner_contrib {Mol Pat : Type} (c : PureChem Mol Pat) (mol : Mol)
    (value : RGroupData) (pat : Pat) (rGroups : RGroupTable) (acc : List Mol) :
    enumInner c.toOps mol value pat rGroups acc =
      .ok (acc ++ rGroups.flatMap (contribOf c mol value pat)) := by
  rw [enumInner_toOps]
  congr 1
  induction rGroups with
  | nil => simp [innerDerivs]
  | cons hd tl ih =>
    by_cases h : hd.2.smarts = value.smarts <;>
      simp [innerDerivs, contribOf, List.filter_cons, h, List.flatMap_cons] <;>
      simpa [innerDerivs] using ih

theorem enumOuter_toOps {Mol Pat : Type} (c : PureChem Mol Pat) (mol : Mol)
    (rGroups found : RGroupTable) (acc : List Mol) :
    enumOuter c.toOps mol rGroups found acc =
      .ok (acc ++ found.flatMap fun f =>
        innerDerivs c mol f.2 (c.molFromSmarts f.2.smarts) rGroups) := by
  induction found generalizing acc with
  | nil => simp [enumOuter]
  | cons hd tl ih =>
    obtain ⟨k, d⟩ := hd
    simp only [enumOuter, toOps_molFromSmarts, enumInner_toOps]
    rw [ih]
    simp [List.flatMap_cons]

/-- The enumerator over a total chemistry: the output sequence is the
(outer found-order, inner table-order) concatenation of one rewrite per
non-skipped pair. -/
theorem r_group_enumerator_toOps {Mol Pat : Type} (c : PureChem Mol Pat)
    (mol : Mol) (rGroups found : RGroupTable) :
    r_group_enumerator c.toOps mol rGroups found =
      .ok (found.flatMap fun f =>
        innerDerivs c mol f.2 (c.molFromSmarts f.2.smarts) rGroups) := by
  rw [r_group_enumerator, enumOuter_toOps]
  simp

/-- The Finder over a total chemistry: the payload is the table filtered to
entries with a non-empty match list, in table order, and the printed log
pairs each retained key with its match count. -/
theorem find_r_groups_toOps {Mol Pat : Type} (c : PureChem Mol Pat)
    (mol : Mol) (rGroups : RGroupTable) :
    find_r_groups c.toOps mol rGroups =
      .ok (rGroups.filter (fun e => decide (¬ foundMatches c mol e = [])),
           (rGroups.filter (fun e => decide (¬ foundMatches c mol e = []))).map
             fun e => (e.1, (foundMatches c mol e).length)) := by
  induction rGroups with
  | nil => simp [find_r_groups]
  | cons hd tl ih =>
    obtain ⟨k, d⟩ := hd
    by_cases h : foundMatches c mol (k, d) = [] <;>
      simp only [find_r_groups, toOps_molFromSmarts, toOps_getSubstructMatches,
                 ih, List.filter_cons] <;>
      simp_all [foundMatches]

/-- Modelled from the spec: the spec's MolecularGraph (§3), "an immutable
labeled graph of atoms (nodes, each with an element/type label ...) and
bonds (edges...)".  The chemistry primitives themselves live in the RDKit
library, outside this repository, so a concrete small model is built here
to instantiate `ChemOps`.  Query patterns reuse the same shape (§3:
"a query graph with the same node/edge shape as MolecularGraph"). -/
structure MolGraph where
  atoms : List String
  bonds : List (Nat × Nat)
deriving DecidableEq, Repr

/-- Whether atoms `i` and `j` are bonded in `g` (bonds are undirected). -/
def hasBond (g : MolGraph) (i j : Nat) : Bool :=
  g.bonds.any fun ab => (ab.1 = i ∧ ab.2 = j) ∨ (ab.1 = j ∧ ab.2 = i)

/-- All length-`n` sequences of pairwise-distinct elements drawn from
`pool`: the raw candidate node-assignments of the matcher. -/
def picks : Nat → List Nat → List (List Nat)
  | 0, _ => [[]]
  | n + 1, pool => pool.flatMap fun i => (picks n (pool.erase i)).map (i :: ·)

/-- Whether a candidate assignment satisfies the pattern's constraints:
each pattern atom maps to a graph atom with the same label, and each
pattern bond maps to a graph bond. -/
def isMatch (g p : MolGraph) (asg : List Nat) : Bool :=
  ((asg.zip p.atoms).all fun pr => g.atoms.getD pr.1 "" = pr.2) &&
  (p.bonds.all fun ab => hasBond g (asg.getD ab.1 0) (asg.getD ab.2 0))

/-- Modelled from the spec: the Pattern Matcher contract (§4.1,
`GetSubstructMatches(pattern, uniquify=False)`, which is RDKit code outside
this repository): "count and enumerate every valid node-assignment
satisfying the pattern's constraints", with no automorphism or overlap
de-duplication. -/
def subMatches (g p : MolGraph) : List (List Nat) :=
  (picks p.atoms.length (List.range g.atoms.length)).filter (isMatch g p)

/-- A valid node-assignment of pattern `p` into graph `g`, stated
independently of the enumeration: right length, pairwise-distinct in-range
atoms, labels agree pointwise, and every pattern bond lands on a bond. -/
def ValidAssignment (g p : MolGraph) (asg : List Nat) : Prop :=
  asg.length = p.atoms.length ∧ asg.Nodup ∧
    (∀ i ∈ asg, i < g.atoms.length) ∧
    (∀ pr ∈ asg.zip p.atoms, g.atoms.getD pr.1 "" = pr.2) ∧
    (∀ ab ∈ p.bonds, hasBond g (asg.getD ab.1 0) (asg.getD ab.2 0) = true)

theorem mem_picks {n : Nat} {pool : List Nat} {asg : List Nat}
    (hpool : pool.Nodup) :
    asg ∈ picks n pool ↔
      asg.length = n ∧ asg.Nodup ∧ ∀ i ∈ asg, i ∈ pool := by
  induction n generalizing pool asg with
  | zero =>
    simp only [picks, List.mem_singleton]
    constructor
    · rintro rfl; simp
    · rintro ⟨h, -, -⟩; exact List.eq_nil_of_length_eq_zero h
  | succ n ih =>
    simp only [picks, List.mem_flatMap, List.mem_map]
    constructor
    · rintro ⟨i, hi, t, ht, rfl⟩
      obtain ⟨hlen, hnd, hmem⟩ := (ih (hpool.erase i)).1 ht
      refine ⟨by simp [hlen], ?_, ?_⟩
      · exact List.nodup_cons.2
          ⟨fun hmem2 => (hpool.mem_erase_iff.1 (hmem i hmem2)).1 rfl, hnd⟩
      · intro j hj
        rcases List.mem_cons.1 hj with rfl | hj
        · exact hi
        · exact (hpool.mem_erase_iff.1 (hmem j hj)).2
    · rintro ⟨hlen, hnd, hmem⟩
      match asg with
      | [] => simp at hlen
      | i :: t =>
        have hnd' := List.nodup_cons.1 hnd
        refine ⟨i, hmem i (by simp), t, (ih (hpool.erase i)).2
          ⟨by simpa using hlen, hnd'.2, fun j hj => ?_⟩, rfl⟩
        exact hpool.mem_erase_iff.2
          ⟨fun hji => hnd'.1 (hji ▸ hj), hmem j (List.mem_cons_of_mem i hj)⟩

/-- Soundness and completeness of the toy matcher's enumeration: an
assignment is listed exactly when it is a valid node-assignment. -/
theorem mem_subMatches (g p : MolGraph) (asg : List Nat) :
    asg ∈ subMatches g p ↔ ValidAssignment g p asg := by
  rw [subMatches, List.mem_filter, mem_picks (List.nodup_range _),
      ValidAssignment, isMatch]
  simp only [List.mem_range, Bool.and_eq_true, List.all_eq_true,
             decide_eq_true_eq, and_assoc]

/-- Modelled from the spec: "a single linear-notation string representing
the base molecule, parsed once into a MolecularGraph" (§6).  The toy
notation reads each character as one atom label and bonds consecutive
atoms into a chain, standing in for the external SMILES/SMARTS parsers. -/
def toyParse (s : String) : MolGraph :=
  { atoms := s.toList.map (fun ch => String.mk [ch]),
    bonds := (List.range (s.length - 1)).map fun i => (i, i + 1) }

/-- Modelled from the spec: the replace-all rewrite (§4.3 step 4 and
glossary: "a single graph transformation that substitutes every occurrence
of a pattern simultaneously"; RDKit's `ReplaceSubstructs` with
`replaceAll=True` is outside this repository).  Every atom lying in any
match occurrence is relabelled, in one pass, with the fragment's (single)
root label; the bond structure is kept.  Faithful for the single-atom
patterns and fragments the concrete examples use. -/
def toyReplace (g p frag : MolGraph) : MolGraph :=
  { atoms := (List.range g.atoms.length).map fun i =>
      if (subMatches g p).any (fun occ => i ∈ occ) then frag.atoms.getD 0 ""
      else g.atoms.getD i "",
    bonds := g.bonds }

/-- The toy chemistry: the concrete `PureChem` used to run the embedded
Finder and Enumerator on explicit molecules. -/
def toyChem : PureChem MolGraph MolGraph where
  molFromSmarts := toyParse
  molFromSmiles := toyParse
  getSubstructMatches := subMatches
  replaceSubstructs := toyReplace

/-! ### Helper lemmas for the cardinality and ordering claims -/

theorem sum_map_const {α : Type} (l : List α) (k : Nat) :
    (l.map fun _ => k).sum = l.length * k := by
  induction l with
  | nil => simp
  | cons a t ih => simp [ih, Nat.succ_mul, Nat.add_comm]

theorem length_filter_ne_of_pairwise {rGroups : RGroupTable} {s : String}
    (hp : rGroups.Pairwise fun a b => a.2.smarts ≠ b.2.smarts)
    (he : ∃ e ∈ rGroups, e.2.smarts = s) :
    (rGroups.filter fun e => decide (¬ e.2.smarts = s)).length =
      rGroups.length - 1 := by
  induction rGroups with
  | nil => simp at he
  | cons hd tl ih =>
    obtain ⟨hhd, htl⟩ := List.pairwise_cons.1 hp
    by_cases h : hd.2.smarts = s
    · have hall : tl.filter (fun e => decide (¬ e.2.smarts = s)) = tl :=
        List.filter_eq_self.2 fun e he2 => by
          simp only [decide_eq_true_eq]
          exact fun heq => hhd e he2 (h.trans heq.symm)
      have hcond : ¬ ((decide (¬ hd.2.smarts = s)) = true) := by simp [h]
      rw [List.filter_cons, if_neg hcond, hall, List.length_cons]
      omega
    · obtain ⟨e, hemem, hes⟩ := he
      rcases List.mem_cons.1 hemem with rfl | hetl
      · exact absurd hes h
      · have hlen : 1 ≤ tl.length := List.length_pos.2 (List.ne_nil_of_mem hetl)
        have htlf := ih htl ⟨e, hetl, hes⟩
        have hcond : (decide (¬ hd.2.smarts = s)) = true := by simp [h]
        rw [List.filter_cons, if_pos hcond, List.length_cons, htlf, List.length_cons]
        omega

theorem innerDerivs_ne_nil {Mol Pat : Type} (c : PureChem Mol Pat) (mol : Mol)
    (value : RGroupData) (pat : Pat) (rGroups : RGroupTable)
    (h : ∃ e ∈ rGroups, ¬ e.2.smarts = value.smarts) :
    innerDerivs c mol value pat rGroups ≠ [] := by
  obtain ⟨e, he, hne⟩ := h
  simp only [innerDerivs, ne_eq, List.map_eq_nil_iff, List.filter_eq_nil_iff]
  intro hall
  exact hall e he (by simpa using hne)

/-! ### Concrete examples run through the toy chemistry -/

/-- The library of the spec's concrete cardinality example: three entries
with pairwise-distinct pattern text. -/
def exLibC1 : RGroupTable :=
  [("A", ⟨"O", "O"⟩), ("B", ⟨"N", "N"⟩), ("C", ⟨"S", "S"⟩)]

/-- Found = {A} for the cardinality example. -/
def exFoundC1 : RGroupTable := [("A", ⟨"O", "O"⟩)]

/-- A two-entry library for the replace-all example: the found hydroxyl
pattern plus an amine replacement. -/
def exLibC3 : RGroupTable := [("hydroxyl", ⟨"O", "O"⟩), ("amine", ⟨"N", "N"⟩)]

/-- Found = {hydroxyl} for the replace-all example. -/
def exFoundC3 : RGroupTable := [("hydroxyl", ⟨"O", "O"⟩)]

/-- A four-membered ring in which the pattern `C-O` matches an atom and its
symmetric mirror: occurrences `[0,1]` and `[2,1]`. -/
def ringMol : MolGraph :=
  { atoms := ["C", "O", "C", "N"], bonds := [(0, 1), (1, 2), (2, 3), (3, 0)] }

/-- A one-entry library whose pattern is the mirrored `C-O` motif. -/
def ringEntry : RGroupTable := [("mirror", ⟨"N", "CO"⟩)]

/-! ### The claims -/

/-- Claim C1: over any total chemistry the enumerator's output length is
the sum, over found entries `f`, of the number of table entries whose
pattern text differs from `f`'s; with pairwise-distinct library pattern
text and every found pattern present in the library this is
`k × (m − 1)`; the output is non-empty whenever a found entry exists and
the library holds two entries with distinct pattern text; and the concrete
instance found = {A}, library = {A, B, C} yields exactly 2 derivatives. -/
theorem c1_enumerator_cardinality {Mol Pat : Type} (c : PureChem Mol Pat)
    (mol : Mol) (rGroups found : RGroupTable) :
    ∃ out, r_group_enumerator c.toOps mol rGroups found = .ok out ∧
      out.length = (found.map fun f =>
        (rGroups.filter fun e => decide (¬ e.2.smarts = f.2.smarts)).length).sum ∧
      ((rGroups.Pairwise fun a b => a.2.smarts ≠ b.2.smarts) →
        (∀ f ∈ found, ∃ e ∈ rGroups, e.2.smarts = f.2.smarts) →
        out.length = found.length * (rGroups.length - 1)) ∧
      (found ≠ [] →
        (∃ e1 ∈ rGroups, ∃ e2 ∈ rGroups, ¬ e1.2.smarts = e2.2.smarts) →
        out ≠ []) ∧
      (∃ outEx, r_group_enumerator toyChem.toOps (toyParse "OC") exLibC1 exFoundC1
          = .ok outEx ∧ outEx.length = 2) := by
  have hlen : (found.flatMap fun f =>
      innerDerivs c mol f.2 (c.molFromSmarts f.2.smarts) rGroups).length =
      (found.map fun f =>
        (rGroups.filter fun e => decide (¬ e.2.smarts = f.2.smarts)).length).sum := by
    rw [List.length_flatMap]
    congr 1
    exact List.map_congr_left fun f _ => by simp [innerDerivs]
  refine ⟨_, r_group_enumerator_toOps c mol rGroups found, hlen, ?_, ?_, ?_⟩
  · intro hp hfound
    rw [hlen, List.map_congr_left fun f hf =>
      length_filter_ne_of_pairwise hp (hfound f hf)]
    exact sum_map_const found (rGroups.length - 1)
  · intro hne hdist
    match found with
    | [] => exact absurd rfl hne
    | f :: rest =>
      obtain ⟨e1, h1, e2, h2, hne12⟩ := hdist
      have hex : ∃ e ∈ rGroups, ¬ e.2.smarts = f.2.smarts := by
        by_cases hc : e1.2.smarts = f.2.smarts
        · exact ⟨e2, h2, fun hc2 => hne12 (hc.trans hc2.symm)⟩
        · exact ⟨e1, h1, hc⟩
      have := innerDerivs_ne_nil c mol f.2 (c.molFromSmarts f.2.smarts) rGroups hex
      simp only [List.flatMap_cons, ne_eq, List.append_eq_nil]
      exact fun hc => this hc.1
  · exact ⟨_, rfl, rfl⟩

/-- Claim C2: in the inner loop a candidate entry contributes no derivative
exactly when its pattern text equals the found entry's pattern text as a
string (so textually different but semantically equivalent patterns are
not skipped, and every table entry sharing the found text is skipped),
and every non-skipped candidate contributes exactly one rewrite. -/
theorem c2_skip_iff_same_pattern_text {Mol Pat : Type} (c : PureChem Mol Pat)
    (mol : Mol) (value : RGroupData) (pat : Pat) (rGroups : RGroupTable)
    (acc : List Mol) :
    ∃ out, enumInner c.toOps mol value pat rGroups acc = .ok out ∧
      out = acc ++ rGroups.flatMap (contribOf c mol value pat) ∧
      ∀ e : String × RGroupData,
        (contribOf c mol value pat e = [] ↔ e.2.smarts = value.smarts) ∧
        (¬ e.2.smarts = value.smarts →
          contribOf c mol value pat e = [derivOf c mol pat e]) := by
  refine ⟨_, enumInner_contrib c mol value pat rGroups acc, rfl, fun e => ?_⟩
  refine ⟨⟨fun h => ?_, fun h => by simp [contribOf, h]⟩, fun h => by simp [contribOf, h]⟩
  by_contra hne
  simp [contribOf, hne] at h

/-- Claim C3: every non-skipped (found, candidate) pair produces exactly
one derivative, the single all-at-once rewrite of the found pattern by the
candidate fragment; concretely, the pattern `O` occurs twice in `OCO`, the
enumeration yields one derivative `NCN` (not two), and in it no occurrence
of the pattern remains. -/
theorem c3_replace_all_per_pair :
    (∀ (Mol Pat : Type) (c : PureChem Mol Pat) (mol : Mol)
        (rGroups found : RGroupTable),
      r_group_enumerator c.toOps mol rGroups found =
        .ok (found.flatMap fun f =>
          (rGroups.filter fun e => decide (¬ e.2.smarts = f.2.smarts)).map
            fun e => c.replaceSubstructs mol (c.molFromSmarts f.2.smarts)
              (c.molFromSmiles e.2.smiles))) ∧
    (subMatches (toyParse "OCO") (toyParse "O")).length = 2 ∧
    r_group_enumerator toyChem.toOps (toyParse "OCO") exLibC3 exFoundC3 =
      .ok [toyParse "NCN"] ∧
    subMatches (toyReplace (toyParse "OCO") (toyParse "O") (toyParse "N"))
      (toyParse "O") = [] := by
  refine ⟨fun Mol Pat c mol rGroups found => ?_, by rfl, by rfl, by rfl⟩
  simpa [innerDerivs, derivOf] using r_group_enumerator_toOps c mol rGroups found

/-- Claim C4: the Finder retains exactly the table entries whose occurrence
list is non-empty, each retained entry's printed log line carries the
occurrence count (the length of that list), and entries with no occurrence
are dropped with the call still succeeding. -/
theorem c4_finder_payload {Mol Pat : Type} (c : PureChem Mol Pat) (mol : Mol)
    (rGroups : RGroupTable) :
    ∃ payload log, find_r_groups c.toOps mol rGroups = .ok (payload, log) ∧
      (∀ e : String × RGroupData,
        e ∈ payload ↔ e ∈ rGroups ∧ ¬ foundMatches c mol e = []) ∧
      log = payload.map fun e => (e.1, (foundMatches c mol e).length) := by
  refine ⟨_, _, find_r_groups_toOps c mol rGroups, fun e => ?_, rfl⟩
  simp [List.mem_filter]

/-- Claim C5: the found payload is the library filtered in insertion order
to the entries with at least one occurrence, and the enumerator output is
the (outer found-order, inner full-table-order) concatenation, the inner
loop running over the entire table `rGroups`, not the found subset. -/
theorem c5_visitation_order {Mol Pat : Type} (c : PureChem Mol Pat) (mol : Mol)
    (rGroups found : RGroupTable) :
    (∃ log, find_r_groups c.toOps mol rGroups =
      .ok (rGroups.filter (fun e => decide (¬ foundMatches c mol e = [])), log)) ∧
    r_group_enumerator c.toOps mol rGroups found =
      .ok (found.flatMap fun f =>
        (rGroups.filter fun e => decide (¬ e.2.smarts = f.2.smarts)).map
          (derivOf c mol (c.molFromSmarts f.2.smarts))) := by
  refine ⟨⟨_, find_r_groups_toOps c mol rGroups⟩, ?_⟩
  simpa [innerDerivs] using r_group_enumerator_toOps c mol rGroups found

/-- Claim C6: the matcher enumerates exactly the valid node-assignments,
with no de-duplication of automorphic or overlapping occurrences; in a
ring where the pattern `C-O` matches an atom and its symmetric mirror it
reports both occurrences (count 2, not 1), and the Finder reports that
count. -/
theorem c6_matcher_enumerates_all_assignments :
    (∀ (g p : MolGraph) (asg : List Nat),
      asg ∈ subMatches g p ↔ ValidAssignment g p asg) ∧
    subMatches ringMol (toyParse "CO") = [[0, 1], [2, 1]] ∧
    find_r_groups toyChem.toOps ringMol ringEntry =
      .ok (ringEntry, [("mirror", 2)]) :=
  ⟨mem_subMatches, rfl, rfl⟩

/-! ### Error propagation (C7, C8) -/

/-- A chemistry whose replace-all rewrite fails on one fragment ("BAD"):
used to observe what the enumerator does when a single (found, candidate)
rewrite cannot be performed. -/
def failReplaceOps : ChemOps String String where
  molFromSmarts s := .ok s
  molFromSmiles s := .ok s
  getSubstructMatches _ _ := [[0]]
  replaceSubstructs mol _ frag :=
    if frag = "BAD" then .error "SubstitutionError" else .ok [mol ++ frag]

/-- The library of the C7 counterexample: the found entry `a`, then an
entry whose fragment makes the rewrite fail, then a perfectly good entry
whose derivative would exist under a skip-and-continue policy. -/
def libC7 : RGroupTable :=
  [("a", ⟨"X", "PX"⟩), ("bad", ⟨"BAD", "PB"⟩), ("good", ⟨"Z", "PZ"⟩)]

/-- Found = {a} for the C7 counterexample. -/
def foundC7 : RGroupTable := [("a", ⟨"X", "PX"⟩)]

/-- Claim C7 counterexample: the pair (a, bad) fails its rewrite, and the
whole enumeration aborts with that error — it does not continue to the
pair (a, good), and no derivative sequence at all is returned. -/
theorem c7_counterexample :
    r_group_enumerator failReplaceOps "M" libC7 foundC7 =
      .error "SubstitutionError" := rfl

/-- Claim C7 amended: the enumerator has no per-pair failure handling — it
returns a derivative sequence only when the rewrite of every visited
non-skipped (found, candidate) pair succeeds, so a single failing pair
aborts the whole enumeration instead of being skipped. -/
theorem c7_error_propagation {Mol Pat : Type} (ops : ChemOps Mol Pat)
    (mol : Mol) (rGroups found : RGroupTable) (out : List Mol)
    (hok : r_group_enumerator ops mol rGroups found = .ok out) :
    ∀ f ∈ found, ∃ pat, ops.molFromSmarts f.2.smarts = .ok pat ∧
      ∀ e ∈ rGroups, ¬ e.2.smarts = f.2.smarts →
        ∃ frag, ops.molFromSmiles e.2.smiles = .ok frag ∧
          ∃ m ms, ops.replaceSubstructs mol pat frag = .ok (m :: ms) := by
  have inner : ∀ (value : RGroupData) (pat : Pat) (l : RGroupTable)
      (acc out2 : List Mol), enumInner ops mol value pat l acc = .ok out2 →
      ∀ e ∈ l, ¬ e.2.smarts = value.smarts →
        ∃ frag, ops.molFromSmiles e.2.smiles = .ok frag ∧
          ∃ m ms, ops.replaceSubstructs mol pat frag = .ok (m :: ms) := by
    intro value pat l
    induction l with
    | nil => intro acc out2 _ e he; simp at he
    | cons hd tl ih =>
      intro acc out2 hstep e he hne
      rcases List.mem_cons.1 he with rfl | hetl
      · rw [enumInner, if_neg hne] at hstep
        match hfr : ops.molFromSmiles e.2.smiles with
        | .error msg => simp [hfr] at hstep
        | .ok frag =>
          match hrep : ops.replaceSubstructs mol pat frag with
          | .error msg => simp [hfr, hrep] at hstep
          | .ok [] => simp [hfr, hrep] at hstep
          | .ok (m :: ms) => exact ⟨frag, rfl, m, ms, hrep⟩
      · rw [enumInner] at hstep
        by_cases hhd : hd.2.smarts = value.smarts
        · rw [if_pos hhd] at hstep
          exact ih acc out2 hstep e hetl hne
        · rw [if_neg hhd] at hstep
          match hfr : ops.molFromSmiles hd.2.smiles with
          | .error msg => simp [hfr] at hstep
          | .ok frag =>
            match hrep : ops.replaceSubstructs mol pat frag with
            | .error msg => simp [hfr, hrep] at hstep
            | .ok [] => simp [hfr, hrep] at hstep
            | .ok (m :: ms) =>
              simp only [hfr, hrep] at hstep
              exact ih (acc ++ [m]) out2 hstep e hetl hne
  have outer : ∀ (fnd : RGroupTable) (acc out2 : List Mol),
      enumOuter ops mol rGroups fnd acc = .ok out2 →
      ∀ f ∈ fnd, ∃ pat, ops.molFromSmarts f.2.smarts = .ok pat ∧
        ∀ e ∈ rGroups, ¬ e.2.smarts = f.2.smarts →
          ∃ frag, ops.molFromSmiles e.2.smiles = .ok frag ∧
            ∃ m ms, ops.replaceSubstructs mol pat frag = .ok (m :: ms) := by
    intro fnd
    induction fnd with
    | nil => intro acc out2 _ f hf; simp at hf
    | cons hd tl ih =>
      intro acc out2 hstep f hf
      rw [enumOuter] at hstep
      match hsm : ops.molFromSmarts hd.2.smarts with
      | .error msg => simp [hsm] at hstep
      | .ok pat =>
        match hin : enumInner ops mol hd.2 pat rGroups acc with
        | .error msg => simp [hsm, hin] at hstep
        | .ok acc2 =>
          rcases List.mem_cons.1 hf with rfl | hftl
          · exact ⟨pat, hsm, inner f.2 pat rGroups acc acc2 hin⟩
          · simp only [hsm, hin] at hstep
            exact ih acc2 out2 hstep f hftl
  exact outer found [] out hok

/-- Claim C7 amended, witness: the conclusion discharged on the toy
chemistry, whose enumeration of the concrete hydroxyl example succeeds. -/
theorem c7_error_propagation_witness :
    ∃ pat, toyChem.toOps.molFromSmarts
        (("hydroxyl", RGroupData.mk "O" "O") : String × RGroupData).2.smarts =
        .ok pat ∧
      ∀ e ∈ exLibC3, ¬ e.2.smarts =
          (("hydroxyl", RGroupData.mk "O" "O") : String × RGroupData).2.smarts →
        ∃ frag, toyChem.toOps.molFromSmiles e.2.smiles = .ok frag ∧
          ∃ m ms, toyChem.toOps.replaceSubstructs (toyParse "OCO") pat frag =
            .ok (m :: ms) :=
  c7_error_propagation toyChem.toOps (toyParse "OCO") exLibC3 exFoundC3
    [toyParse "NCN"] (by rfl) ("hydroxyl", RGroupData.mk "O" "O") (by simp [exFoundC3])

/-- A chemistry whose pattern parser rejects one notation string: used to
observe what the Finder does with a single malformed library entry. -/
def failPatternOps : ChemOps String String where
  molFromSmarts s := if s = "MALFORMED" then .error "PatternError" else .ok s
  molFromSmiles s := .ok s
  getSubstructMatches _ _ := [[0]]
  replaceSubstructs mol _ frag := .ok [mol ++ frag]

/-- The library of the C8 counterexample: a good entry, a malformed-pattern
entry, then another good entry whose result is lost with the whole pass. -/
def libC8 : RGroupTable :=
  [("one", ⟨"F1", "P1"⟩), ("bad", ⟨"F2", "MALFORMED"⟩), ("two", ⟨"F3", "P2"⟩)]

/-- Claim C8 counterexample: one malformed pattern aborts the whole find
pass — the error propagates and no mapping is returned, although both
other entries match and would be reported under a log-and-skip policy. -/
theorem c8_counterexample :
    find_r_groups failPatternOps "M" libC8 = .error "PatternError" := rfl

/-- Claim C8 amended: the Finder has no per-entry failure handling — it
returns a mapping only when every library entry's pattern parses, so a
single malformed entry aborts the whole find pass instead of being logged
and skipped. -/
theorem c8_find_error_propagation {Mol Pat : Type} (ops : ChemOps Mol Pat)
    (mol : Mol) (rGroups : RGroupTable)
    (payload : RGroupTable) (log : List (String × Nat))
    (hok : find_r_groups ops mol rGroups = .ok (payload, log)) :
    ∀ e ∈ rGroups, ∃ p, ops.molFromSmarts e.2.smarts = .ok p := by
  induction rGroups generalizing payload log with
  | nil => intro e he; simp at he
  | cons hd tl ih =>
    intro e he
    rw [find_r_groups] at hok
    match hsm : ops.molFromSmarts hd.2.smarts with
    | .error msg => rw [hsm] at hok; exact absurd hok (by simp)
    | .ok p =>
      rw [hsm] at hok
      match hrec : find_r_groups ops mol tl with
      | .error msg => rw [hrec] at hok; exact absurd hok (by simp)
      | .ok (payload2, log2) =>
        rcases List.mem_cons.1 he with rfl | hetl
        · exact ⟨p, hsm⟩
        · exact ih payload2 log2 hrec e hetl

/-- Claim C8 amended, witness: the conclusion discharged on the toy
chemistry over the concrete ring library, whose find pass succeeds. -/
theorem c8_find_error_propagation_witness :
    ∃ p, toyChem.toOps.molFromSmarts
      (("mirror", RGroupData.mk "N" "CO") : String × RGroupData).2.smarts = .ok p :=
  c8_find_error_propagation toyChem.toOps ringMol ringEntry ringEntry
    [("mirror", 2)] (by rfl) ("mirror", RGroupData.mk "N" "CO") (by simp [ringEntry])

/-! ### State-threaded translation (C9)

The Python methods run against object state `self.molecule` and the
module-level `R_GROUPS` mapping.  The following translation threads that
state through every loop iteration — where an assignment to either would
appear if the code performed one — so that leaving it unchanged is a
provable property of the translation rather than a modelling assumption.
Only the local accumulators (`pattern_payload`, `modified_molecules`) are
written, exactly as in the source. -/

/-- The state the two methods read: `self.molecule` and `R_GROUPS`. -/
structure RGroupState (Mol : Type) where
  molecule : Mol
  r_groups : RGroupTable

/-- `find_r_groups` as a state-threaded loop: the payload and log grow by
appending (the dict/print of the source), the state is carried through
every iteration, and the final state is returned with the result. -/
def findFrom {Mol Pat : Type} (ops : ChemOps Mol Pat) (st : RGroupState Mol) :
    RGroupTable → RGroupTable → List (String × Nat) →
    Except String ((RGroupTable × List (String × Nat)) × RGroupState Mol)
  | [], payload, log => .ok ((payload, log), st)
  | (key, value) :: rest, payload, log =>
    match ops.molFromSmarts value.smarts with
    | .error e => .error e
    | .ok pattern =>
      if ops.getSubstructMatches st.molecule pattern = [] then
        findFrom ops st rest payload log
      else
        findFrom ops st rest (payload ++ [(key, value)])
          (log ++ [(key, (ops.getSubstructMatches st.molecule pattern).length)])

/-- Run the Finder from a state, starting with empty payload and log. -/
def find_r_groups_run {Mol Pat : Type} (ops : ChemOps Mol Pat)
    (st : RGroupState Mol) :
    Except String ((RGroupTable × List (String × Nat)) × RGroupState Mol) :=
  findFrom ops st st.r_groups [] []

/-- The enumerator's inner loop, state-threaded. -/
def enumInnerRun {Mol Pat : Type} (ops : ChemOps Mol Pat) (st : RGroupState Mol)
    (value : RGroupData) (smarts_mol : Pat) :
    RGroupTable → List Mol → Except String (List Mol × RGroupState Mol)
  | [], acc => .ok (acc, st)
  | (_, r_data) :: rest, acc =>
    if r_data.smarts = value.smarts then
      enumInnerRun ops st value smarts_mol rest acc
    else
      match ops.molFromSmiles r_data.smiles with
      | .error e => .error e
      | .ok fragment =>
        match ops.replaceSubstructs st.molecule smarts_mol fragment with
        | .error e => .error e
        | .ok [] => .error "list index out of range"
        | .ok (m :: _) => enumInnerRun ops st value smarts_mol rest (acc ++ [m])

/-- The enumerator's outer loop, state-threaded: each iteration passes on
the state the inner loop returned. -/
def enumOuterRun {Mol Pat : Type} (ops : ChemOps Mol Pat) :
    RGroupState Mol → RGroupTable → List Mol →
    Except String (List Mol × RGroupState Mol)
  | st, [], acc => .ok (acc, st)
  | st, (_, value) :: restFound, acc =>
    match ops.molFromSmarts value.smarts with
    | .error e => .error e
    | .ok smarts_mol =>
      match enumInnerRun ops st value smarts_mol st.r_groups acc with
      | .error e => .error e
      | .ok (acc2, st2) => enumOuterRun ops st2 restFound acc2

/-- Run the enumerator from a state with the empty accumulator. -/
def r_group_enumerator_run {Mol Pat : Type} (ops : ChemOps Mol Pat)
    (st : RGroupState Mol) (patterns_found : RGroupTable) :
    Except String (List Mol × RGroupState Mol) :=
  enumOuterRun ops st patterns_found []

theorem enumInnerRun_eq {Mol Pat : Type} (ops : ChemOps Mol Pat)
    (st : RGroupState Mol) (value : RGroupData) (smarts_mol : Pat)
    (l : RGroupTable) (acc : List Mol) :
    enumInnerRun ops st value smarts_mol l acc =
      (enumInner ops st.molecule value smarts_mol l acc).map
        fun out => (out, st) := by
  induction l generalizing acc with
  | nil => simp [enumInnerRun, enumInner, Except.map]
  | cons hd tl ih =>
    obtain ⟨k, d⟩ := hd
    rw [enumInnerRun, enumInner]
    by_cases h : d.smarts = value.smarts
    · rw [if_pos h, if_pos h]
      exact ih acc
    · rw [if_neg h, if_neg h]
      cases hfr : ops.molFromSmiles d.smiles with
      | error e => rfl
      | ok frag =>
        simp only []
        cases hrep : ops.replaceSubstructs st.molecule smarts_mol frag with
        | error e => rfl
        | ok ms =>
          cases ms with
          | nil => rfl
          | cons m rest =>
            simp only []
            exact ih (acc ++ [m])

theorem enumOuterRun_eq {Mol Pat : Type} (ops : ChemOps Mol Pat)
    (found : RGroupTable) (st : RGroupState Mol) (acc : List Mol) :
    enumOuterRun ops st found acc =
      (enumOuter ops st.molecule st.r_groups found acc).map
        fun out => (out, st) := by
  induction found generalizing acc with
  | nil => simp [enumOuterRun, enumOuter, Except.map]
  | cons hd tl ih =>
    obtain ⟨k, d⟩ := hd
    rw [enumOuterRun, enumOuter]
    cases hsm : ops.molFromSmarts d.smarts with
    | error e => rfl
    | ok p =>
      simp only []
      rw [enumInnerRun_eq]
      cases hin : enumInner ops st.molecule d p st.r_groups acc with
      | error e => rfl
      | ok acc2 =>
        simp only [Except.map]
        exact ih acc2

theorem findFrom_eq {Mol Pat : Type} (ops : ChemOps Mol Pat)
    (st : RGroupState Mol) (l : RGroupTable) (payload : RGroupTable)
    (log : List (String × Nat)) :
    findFrom ops st l payload log =
      (find_r_groups ops st.molecule l).map
        fun res => ((payload ++ res.1, log ++ res.2), st) := by
  induction l generalizing payload log with
  | nil => simp [findFrom, find_r_groups, Except.map]
  | cons hd tl ih =>
    obtain ⟨k, d⟩ := hd
    rw [findFrom, find_r_groups]
    cases hsm : ops.molFromSmarts d.smarts with
    | error e => rfl
    | ok p =>
      simp only []
      by_cases hm : ops.getSubstructMatches st.molecule p = []
      · rw [if_pos hm, ih payload log]
        cases hrec : find_r_groups ops st.molecule tl with
        | error e => rfl
        | ok res =>
          obtain ⟨pl, lg⟩ := res
          simp only []
          rw [if_pos hm]
      · rw [if_neg hm, ih]
        cases hrec : find_r_groups ops st.molecule tl with
        | error e => rfl
        | ok res =>
          obtain ⟨pl, lg⟩ := res
          simp only []
          rw [if_neg hm]
          simp [Except.map, List.append_assoc]

theorem find_r_groups_run_eq {Mol Pat : Type} (ops : ChemOps Mol Pat)
    (st : RGroupState Mol) :
    find_r_groups_run ops st =
      (find_r_groups ops st.molecule st.r_groups).map fun res => (res, st) := by
  rw [find_r_groups_run, findFrom_eq]
  match find_r_groups ops st.molecule st.r_groups with
  | .error e => rfl
  | .ok res => simp [Except.map]

theorem r_group_enumerator_run_eq {Mol Pat : Type} (ops : ChemOps Mol Pat)
    (st : RGroupState Mol) (found : RGroupTable) :
    r_group_enumerator_run ops st found =
      (r_group_enumerator ops st.molecule st.r_groups found).map
        fun out => (out, st) := by
  rw [r_group_enumerator_run, r_group_enumerator, enumOuterRun_eq]

/-- Claim C9: both operations are read-only on the molecule and the
library — the state-threaded translation returns the initial state
unchanged on success, agreeing with the pure embedding's result — and
every derivative in the output is a value newly constructed by the
replace-all rewrite primitive, not the base graph mutated in place. -/
theorem c9_finder_enumerator_read_only {Mol Pat : Type} (ops : ChemOps Mol Pat)
    (st : RGroupState Mol) (found : RGroupTable) :
    (∀ res st2, find_r_groups_run ops st = .ok (res, st2) →
      st2 = st ∧ find_r_groups ops st.molecule st.r_groups = .ok res) ∧
    (∀ out st2, r_group_enumerator_run ops st found = .ok (out, st2) →
      st2 = st ∧ r_group_enumerator ops st.molecule st.r_groups found = .ok out) ∧
    (∀ (Mol2 Pat2 : Type) (c : PureChem Mol2 Pat2) (mol : Mol2)
        (rGroups fnd : RGroupTable),
      r_group_enumerator c.toOps mol rGroups fnd =
        .ok (fnd.flatMap fun f =>
          (rGroups.filter fun e => decide (¬ e.2.smarts = f.2.smarts)).map
            (derivOf c mol (c.molFromSmarts f.2.smarts)))) := by
  refine ⟨?_, ?_, ?_⟩
  · intro res st2 h
    rw [find_r_groups_run_eq] at h
    match hrec : find_r_groups ops st.molecule st.r_groups with
    | .error e => rw [hrec] at h; exact absurd h (by simp [Except.map])
    | .ok res0 =>
      rw [hrec] at h
      simp only [Except.map, Except.ok.injEq, Prod.mk.injEq] at h
      exact ⟨h.2.symm, by rw [h.1]⟩
  · intro out st2 h
    rw [r_group_enumerator_run_eq] at h
    match hrec : r_group_enumerator ops st.molecule st.r_groups found with
    | .error e => rw [hrec] at h; exact absurd h (by simp [Except.map])
    | .ok out0 =>
      rw [hrec] at h
      simp only [Except.map, Except.ok.injEq, Prod.mk.injEq] at h
      exact ⟨h.2.symm, by rw [h.1]⟩
  · intro Mol2 Pat2 c mol rGroups fnd
    simpa [innerDerivs] using r_group_enumerator_toOps c mol rGroups fnd

/-- Claim C10: a present (truthy) molecule argument skips the sanitization
branch entirely and the method returns `None`; the branch is entered only
for a falsy (`None`) argument, in which case the falsy argument itself is
returned regardless of what the sanitizer does — so no caller-supplied
molecule is ever validated by this method. -/
theorem c10_validate_molecule_never_validates {Mol : Type}
    (sanitize : Option Mol → Except String Unit) :
    (∀ m : Mol, validate_molecule sanitize (some m) =
      { returned := none, sanitizeReached := false }) ∧
    validate_molecule sanitize (none : Option Mol) =
      { returned := none, sanitizeReached := true } ∧
    (validate_molecule sanitize (none : Option Mol)).returned = none ∧
    (∀ m : Option Mol,
      (validate_molecule sanitize m).sanitizeReached = true ↔ m = none) := by
  refine ⟨fun m => rfl, ?_, ?_, fun m => ?_⟩
  · rw [validate_molecule]
  · rw [validate_molecule]
  · match m with
    | some m2 => simp [validate_molecule]
    | none => simp [validate_molecule]

end CocktailShaker
